import Mathlib

/-!
Verification of the Knowledge Index & Link-Inference Engine.

This file gives a shallow embedding, in Lean 4, of the core of the
repository: `src/index_manager.py` (the knowledge index),
`src/link_generator.py` (the link inferencer) and the metadata-parsing /
filename-derivation logic of `src/pipeline.py`.  Python dictionaries are
modelled as insertion-ordered association lists (update-in-place on an
existing key, append otherwise — exactly the observable behaviour of a
`dict`), Python float arithmetic on the similarity scores is modelled by
exact fraction arithmetic (`Frac` below; all scores in the source are
quotients of small integers), and Python strings are modelled as Lean
strings, processed through their underlying character lists so that every
definition is executable by kernel reduction.

Definitions are translated from the source; theorems relate them to the
specification's vocabulary (Jaccard similarity over finite sets, rational
arithmetic over `ℚ`).
-/

/-! ## Association lists with Python-dict semantics -/

/-- First-match lookup, `d.get(k)` / `d[k]` on a Python dict modelled as an
insertion-ordered association list. -/
def alistGet {β : Type} : List (String × β) → String → Option β
  | [], _ => none
  | (k, v) :: rest, key => if k = key then some v else alistGet rest key

/-- `d[k] = v` on a Python dict: overwrite the existing slot in place if the
key is present, append at the end otherwise. -/
def alistSet {β : Type} : List (String × β) → String → β → List (String × β)
  | [], key, v => [(key, v)]
  | (k, w) :: rest, key, v =>
    if k = key then (key, v) :: rest else (k, w) :: alistSet rest key v

theorem alistGet_alistSet {β : Type} (m : List (String × β)) (k k' : String) (v : β) :
    alistGet (alistSet m k v) k' = if k' = k then some v else alistGet m k' := by
  induction m with
  | nil =>
    by_cases h : k' = k
    · subst h
      simp [alistGet, alistSet]
    · simp [alistGet, alistSet, h, Ne.symm h]
  | cons p rest ih =>
    obtain ⟨k₀, v₀⟩ := p
    by_cases h0 : k₀ = k
    · subst h0
      by_cases h1 : k₀ = k'
      · subst h1
        simp [alistGet, alistSet]
      · simp [alistGet, alistSet, h1, Ne.symm h1]
    · by_cases h1 : k₀ = k'
      · subst h1
        simp [alistGet, alistSet, h0, Ne.symm h0, ih]
      · simp [alistGet, alistSet, h0, h1, Ne.symm h1, ih]

theorem alistGet_alistSet_self {β : Type} (m : List (String × β)) (k : String) (v : β) :
    alistGet (alistSet m k v) k = some v := by
  simp [alistGet_alistSet]

theorem alistGet_alistSet_ne {β : Type} (m : List (String × β)) {k k' : String} (v : β)
    (h : k' ≠ k) : alistGet (alistSet m k v) k' = alistGet m k' := by
  simp [alistGet_alistSet, h]

/-- With distinct keys, pair membership agrees with lookup. -/
theorem mem_iff_alistGet {β : Type} {m : List (String × β)} (hnd : (m.map Prod.fst).Nodup)
    (k : String) (v : β) : (k, v) ∈ m ↔ alistGet m k = some v := by
  induction m with
  | nil => simp [alistGet]
  | cons p rest ih =>
    obtain ⟨k₀, v₀⟩ := p
    simp only [List.map_cons, List.nodup_cons] at hnd
    by_cases h : k₀ = k
    · subst h
      simp only [alistGet, eq_self_iff_true, if_true, List.mem_cons, Option.some.injEq,
        Prod.mk.injEq, true_and]
      constructor
      · intro h2
        rcases h2 with h2 | h2
        · exact h2.symm
        · exact absurd (List.mem_map_of_mem Prod.fst h2) hnd.1
      · intro h2
        exact Or.inl h2.symm
    · simp only [alistGet, if_neg h, List.mem_cons, Prod.mk.injEq]
      rw [ih hnd.2]
      constructor
      · intro h2
        rcases h2 with ⟨h3, _⟩ | h2
        · exact absurd h3.symm h
        · exact h2
      · exact Or.inr

/-! ## Exact fractions

The similarity scores in `index_manager.py` are Python floats, but every
value that actually arises is a quotient of small integers
(`len(A∩B)/len(A∪B)` combined with the literals `0.6`, `0.4`, `0.8`,
`0.3`).  We model this arithmetic exactly, by unreduced integer fractions
with positive denominators; `Frac.toRat` maps a score to the rational
number it denotes, which is the form the specification's formulas use. -/

structure Frac where
  num : Int
  den : Int
deriving DecidableEq

/-- Multiplication of fractions (no normalisation). -/
def Frac.mul (a b : Frac) : Frac := ⟨a.num * b.num, a.den * b.den⟩

/-- Addition of fractions (no normalisation). -/
def Frac.add (a b : Frac) : Frac := ⟨a.num * b.den + b.num * a.den, a.den * b.den⟩

/-- Comparison `a <= b` by cross-multiplication; agrees with the rational
order whenever both denominators are positive. -/
def Frac.fle (a b : Frac) : Bool := a.num * b.den ≤ b.num * a.den

/-- Strict comparison `a < b` by cross-multiplication. -/
def Frac.flt (a b : Frac) : Bool := a.num * b.den < b.num * a.den

/-- The rational number denoted by a fraction. -/
def Frac.toRat (a : Frac) : ℚ := (a.num : ℚ) / (a.den : ℚ)

theorem Frac.fle_iff_toRat {a b : Frac} (ha : 0 < a.den) (hb : 0 < b.den) :
    a.fle b = true ↔ a.toRat ≤ b.toRat := by
  have ha' : (0 : ℚ) < (a.den : ℚ) := by exact_mod_cast ha
  have hb' : (0 : ℚ) < (b.den : ℚ) := by exact_mod_cast hb
  rw [Frac.fle, decide_eq_true_eq, Frac.toRat, Frac.toRat, div_le_div_iff₀ ha' hb']
  constructor
  · intro h
    exact_mod_cast h
  · intro h
    exact_mod_cast h

theorem Frac.flt_iff_toRat {a b : Frac} (ha : 0 < a.den) (hb : 0 < b.den) :
    a.flt b = true ↔ a.toRat < b.toRat := by
  have ha' : (0 : ℚ) < (a.den : ℚ) := by exact_mod_cast ha
  have hb' : (0 : ℚ) < (b.den : ℚ) := by exact_mod_cast hb
  rw [Frac.flt, decide_eq_true_eq, Frac.toRat, Frac.toRat, div_lt_div_iff₀ ha' hb']
  constructor
  · intro h
    exact_mod_cast h
  · intro h
    exact_mod_cast h

theorem Frac.toRat_mul {a b : Frac} (ha : a.den ≠ 0) (hb : b.den ≠ 0) :
    (a.mul b).toRat = a.toRat * b.toRat := by
  have ha' : (a.den : ℚ) ≠ 0 := Int.cast_ne_zero.mpr ha
  have hb' : (b.den : ℚ) ≠ 0 := Int.cast_ne_zero.mpr hb
  simp only [Frac.mul, Frac.toRat]
  push_cast
  field_simp

theorem Frac.toRat_add {a b : Frac} (ha : a.den ≠ 0) (hb : b.den ≠ 0) :
    (a.add b).toRat = a.toRat + b.toRat := by
  have ha' : (a.den : ℚ) ≠ 0 := Int.cast_ne_zero.mpr ha
  have hb' : (b.den : ℚ) ≠ 0 := Int.cast_ne_zero.mpr hb
  simp only [Frac.add, Frac.toRat]
  push_cast
  field_simp
  try ring

/-! ## Data model of the knowledge index (`index_manager.py`)

A `FileRecord` is one entry of `self.data["files"]`.  The `created` /
`updated` wall-clock date strings are irrelevant to every claim (they are
never read by the code under verification) and are omitted from the
record; all other fields are kept. -/

structure FileRecord where
  title : String
  tags : List String
  topics : List String
  size_chars : Nat
  parent : Option String
  related : List String
deriving DecidableEq

/-- The in-memory index `self.data` (the `version` and `last_updated`
bookkeeping strings are never consulted by the operations and are
omitted). -/
structure IndexState where
  files : List (String × FileRecord)
  topics_index : List (String × List String)
  tags_index : List (String × List String)
  backlinks : List (String × List String)
  stats_total_files : Nat
  stats_total_links : Nat
deriving DecidableEq

/-- The fresh index created by `_load_or_create_index`. -/
def emptyIndex : IndexState :=
  { files := [], topics_index := [], tags_index := [], backlinks := []
    stats_total_files := 0, stats_total_links := 0 }

/-- One step of the loop body shared by `_update_topics_index` and
`_update_tags_index`: ensure the key exists, then append the filename if it
is not already present. -/
def indexAdd (idx : List (String × List String)) (key fn : String) :
    List (String × List String) :=
  let idx1 := if (alistGet idx key).isSome then idx else alistSet idx key []
  let cur := (alistGet idx1 key).getD []
  if fn ∈ cur then idx1 else alistSet idx1 key (cur ++ [fn])

/-- `_update_topics_index` / `_update_tags_index`: fold `indexAdd` over the
tag/topic list. -/
def updateIdxList (idx : List (String × List String)) (fn : String)
    (keys : List String) : List (String × List String) :=
  keys.foldl (fun a k => indexAdd a k fn) idx

/-- `_update_stats`: recompute both aggregates from the records. -/
def updateStats (s : IndexState) : IndexState :=
  { s with stats_total_files := s.files.length
           stats_total_links := (s.files.map (fun p => p.2.related.length)).sum }

/-- `IndexManager.add_file` (the record's date fields are dropped, see
`FileRecord`; `related or []` is `related.getD []`). -/
def addFile (s : IndexState) (filename title : String) (tags topics : List String)
    (parent : Option String) (related : Option (List String)) : IndexState :=
  let rec0 : FileRecord :=
    { title := title, tags := tags, topics := topics, size_chars := 0
      parent := parent, related := related.getD [] }
  let s1 := { s with files := alistSet s.files filename rec0 }
  let s2 := { s1 with topics_index := updateIdxList s1.topics_index filename topics }
  let s3 := { s2 with tags_index := updateIdxList s2.tags_index filename tags }
  updateStats s3

/-- `IndexManager.update_related_links`: overwrite `related` if the file is
known, otherwise do nothing.  (Note: the source does not call
`_update_stats` here.) -/
def updateRelatedLinks (s : IndexState) (filename : String) (related : List String) :
    IndexState :=
  match alistGet s.files filename with
  | some r => { s with files := alistSet s.files filename { r with related := related } }
  | none => s

/-- `IndexManager.update_backlinks` (the `"backlinks" not in self.data`
healing check is a no-op in the model, where the field always exists). -/
def updateBacklinks (s : IndexState) (source target : String) : IndexState :=
  let bl := if (alistGet s.backlinks target).isSome then s.backlinks
            else alistSet s.backlinks target []
  let cur := (alistGet bl target).getD []
  let bl2 := if source ∈ cur then bl else alistSet bl target (cur ++ [source])
  { s with backlinks := bl2 }

/-- `IndexManager.get_backlinks`. -/
def getBacklinks (s : IndexState) (filename : String) : List String :=
  (alistGet s.backlinks filename).getD []

/-- `IndexManager.find_by_tag`. -/
def findByTag (s : IndexState) (tag : String) : List String :=
  (alistGet s.tags_index tag).getD []

/-- `IndexManager.find_by_topic`. -/
def findByTopic (s : IndexState) (topic : String) : List String :=
  (alistGet s.topics_index topic).getD []

/-! ## Similarity ranking (`find_related_files`) -/

/-- The Jaccard computation of `find_related_files`: sets are the Python
`set(...)` of the stored lists; the guard `if (current or other) else 0`
yields `0` exactly when both sets are empty. -/
def jaccardPy (a b : List String) : Frac :=
  let A := a.toFinset
  let B := b.toFinset
  if A.Nonempty ∨ B.Nonempty then ⟨((A ∩ B).card : Int), ((A ∪ B).card : Int)⟩
  else ⟨0, 1⟩

/-- `relevance = tags_jaccard * 0.6 + topics_jaccard * 0.4`. -/
def pyRelevance (cur other : FileRecord) : Frac :=
  ((jaccardPy cur.tags other.tags).mul ⟨6, 10⟩).add
    ((jaccardPy cur.topics other.topics).mul ⟨4, 10⟩)

/-- The `related` accumulation loop of `find_related_files`: every other
record whose relevance passes the threshold, in storage order. -/
def relatedCandidates (s : IndexState) (filename : String) (cur : FileRecord)
    (minRelevance : Frac) : List (String × Frac) :=
  s.files.foldl
    (fun acc p =>
      if p.1 = filename then acc
      else
        let rel := pyRelevance cur p.2
        if minRelevance.fle rel then acc ++ [(p.1, rel)] else acc)
    []

/-- Stable insertion into a list kept in descending score order: the new
element goes after every element whose score is at least as large. -/
def insertDesc (x : String × Frac) : List (String × Frac) → List (String × Frac)
  | [] => [x]
  | y :: ys => if x.2.fle y.2 then y :: insertDesc x ys else x :: y :: ys

/-- `sorted(..., key=score, reverse=True)`: a stable descending sort. -/
def sortDescBySnd (l : List (String × Frac)) : List (String × Frac) :=
  l.foldl (fun acc x => insertDesc x acc) []

/-- `IndexManager.find_related_files`.  The Python defaults are
`maxResults = 5`, `minRelevance = 0.3`. -/
def findRelatedFiles (s : IndexState) (filename : String) (maxResults : Nat)
    (minRelevance : Frac) : List (String × Frac) :=
  match alistGet s.files filename with
  | none => []
  | some cur => (sortDescBySnd (relatedCandidates s filename cur minRelevance)).take maxResults

/-! ## Backlink behaviour (claim C8) -/

theorem updateBacklinks_of_mem (s : IndexState) (source target : String)
    (h : source ∈ getBacklinks s target) : updateBacklinks s source target = s := by
  unfold getBacklinks at h
  cases hg : alistGet s.backlinks target with
  | none =>
    rw [hg] at h
    simp at h
  | some l =>
    rw [hg] at h
    simp only [Option.getD_some] at h
    simp [updateBacklinks, hg, h]

theorem getBacklinks_updateBacklinks_of_not_mem (s : IndexState) (source target : String)
    (h : source ∉ getBacklinks s target) :
    getBacklinks (updateBacklinks s source target) target = getBacklinks s target ++ [source] := by
  unfold getBacklinks at h
  cases hg : alistGet s.backlinks target with
  | none =>
    rw [hg] at h
    simp only [updateBacklinks, getBacklinks, hg]
    simp [alistGet_alistSet_self, alistGet_alistSet]
  | some l =>
    rw [hg] at h
    simp only [Option.getD_some] at h
    simp [updateBacklinks, getBacklinks, hg, h, alistGet_alistSet_self]

/-- C8: `update_backlinks` is idempotent — called twice it leaves the source
in the target's backlink list exactly once, and in general it appends the
source only when it is not already present (when present, the state is
left entirely unchanged). -/
theorem c8_update_backlinks_idempotent (s : IndexState) (A B : String)
    (h : (getBacklinks s B).count A ≤ 1) :
    ((getBacklinks (updateBacklinks (updateBacklinks s A B) A B) B).count A = 1) ∧
    (A ∈ getBacklinks s B → updateBacklinks s A B = s) ∧
    (A ∉ getBacklinks s B → getBacklinks (updateBacklinks s A B) B
        = getBacklinks s B ++ [A]) := by
  refine ⟨?_, ?_, ?_⟩
  case refine_2 =>
    intro hm
    exact updateBacklinks_of_mem s A B hm
  case refine_3 =>
    intro hm
    exact getBacklinks_updateBacklinks_of_not_mem s A B hm
  by_cases hm : A ∈ getBacklinks s B
  · rw [updateBacklinks_of_mem s A B hm, updateBacklinks_of_mem s A B hm]
    have h1 : (getBacklinks s B).count A ≠ 0 := by
      intro h0
      exact (List.count_eq_zero.mp h0) hm
    omega
  · have h2 := getBacklinks_updateBacklinks_of_not_mem s A B hm
    have hm2 : A ∈ getBacklinks (updateBacklinks s A B) B := by
      rw [h2]
      simp
    rw [updateBacklinks_of_mem _ A B hm2, h2, List.count_append]
    have h0 : (getBacklinks s B).count A = 0 := List.count_eq_zero.mpr hm
    simp [h0]

theorem c8_update_backlinks_idempotent_witness :
    ((getBacklinks emptyIndex "b.md").count "a.md" ≤ 1) ∧
    (((getBacklinks (updateBacklinks (updateBacklinks emptyIndex "a.md" "b.md")
          "a.md" "b.md") "b.md").count "a.md" = 1) ∧
     ("a.md" ∈ getBacklinks emptyIndex "b.md" →
        updateBacklinks emptyIndex "a.md" "b.md" = emptyIndex) ∧
     ("a.md" ∉ getBacklinks emptyIndex "b.md" →
        getBacklinks (updateBacklinks emptyIndex "a.md" "b.md") "b.md"
          = getBacklinks emptyIndex "b.md" ++ ["a.md"])) :=
  ⟨by decide, c8_update_backlinks_idempotent emptyIndex "a.md" "b.md" (by decide)⟩

/-! ## Stats behaviour (claim C3) -/

/-- The derived aggregate the spec calls "total related-link count". -/
def derivedTotalLinks (s : IndexState) : Nat :=
  (s.files.map (fun p => p.2.related.length)).sum

/-- C3 counterexample: `update_related_links` changes a record's `related`
list but does not recompute the stats, so after it the stored
`total_links` differs from the derived aggregate. -/
theorem c3_stats_counterexample :
    (updateRelatedLinks (addFile emptyIndex "a.md" "A" [] [] none none)
        "a.md" ["b.md"]).stats_total_links
      ≠ derivedTotalLinks (updateRelatedLinks
          (addFile emptyIndex "a.md" "A" [] [] none none) "a.md" ["b.md"]) := by
  decide

/-- C3 amended: the stats equal the derived aggregates after every
`add_file` (which ends by recomputing them), but `update_related_links`
leaves both stats fields untouched. -/
theorem c3_stats_amended (s : IndexState) (filename title : String)
    (tags topics : List String) (parent : Option String)
    (related : Option (List String)) :
    ((addFile s filename title tags topics parent related).stats_total_files
        = (addFile s filename title tags topics parent related).files.length) ∧
    ((addFile s filename title tags topics parent related).stats_total_links
        = derivedTotalLinks (addFile s filename title tags topics parent related)) ∧
    (∀ fn rel, (updateRelatedLinks s fn rel).stats_total_files = s.stats_total_files ∧
        (updateRelatedLinks s fn rel).stats_total_links = s.stats_total_links) := by
  refine ⟨rfl, rfl, ?_⟩
  intro fn rel
  unfold updateRelatedLinks
  cases alistGet s.files fn <;> simp

/-! ## The tag/topic inverted-index invariant (claim C2) -/

/-- Membership effect of one `indexAdd` step. -/
theorem mem_indexAdd (idx : List (String × List String)) (key fn k fn' : String) :
    fn' ∈ (alistGet (indexAdd idx key fn) k).getD [] ↔
      fn' ∈ (alistGet idx k).getD [] ∨ (k = key ∧ fn' = fn) := by
  unfold indexAdd
  by_cases hk : k = key
  · subst hk
    cases hg : alistGet idx k with
    | none =>
      simp [hg, alistGet_alistSet]
    | some l =>
      by_cases hf : fn ∈ l
      · simp only [hg, Option.isSome_some, if_true, Option.getD_some, if_pos hf, true_and]
        exact ⟨Or.inl, fun h2 => h2.elim id (fun h3 => h3 ▸ hf)⟩
      · simp [hg, hf, alistGet_alistSet]
  · cases hg : alistGet idx key with
    | none =>
      simp [hg, alistGet_alistSet, hk]
    | some l =>
      by_cases hf : fn ∈ l
      · simp [hg, hf, hk]
      · simp [hg, hf, alistGet_alistSet, hk]

/-- Membership effect of `_update_tags_index` / `_update_topics_index`. -/
theorem mem_updateIdxList (idx : List (String × List String)) (fn : String)
    (keys : List String) (k fn' : String) :
    fn' ∈ (alistGet (updateIdxList idx fn keys) k).getD [] ↔
      fn' ∈ (alistGet idx k).getD [] ∨ (k ∈ keys ∧ fn' = fn) := by
  induction keys generalizing idx with
  | nil => simp [updateIdxList]
  | cons key rest ih =>
    show fn' ∈ (alistGet (updateIdxList (indexAdd idx key fn) fn rest) k).getD [] ↔ _
    rw [ih, mem_indexAdd]
    simp only [List.mem_cons]
    tauto

/-- The record written by `add_file`. -/
def mkRecord (title : String) (tags topics : List String) (parent : Option String)
    (related : Option (List String)) : FileRecord :=
  { title := title, tags := tags, topics := topics, size_chars := 0
    parent := parent, related := related.getD [] }

theorem addFile_files (s : IndexState) (f t : String) (tg tp : List String)
    (p : Option String) (r : Option (List String)) :
    (addFile s f t tg tp p r).files = alistSet s.files f (mkRecord t tg tp p r) := rfl

theorem addFile_tags_index (s : IndexState) (f t : String) (tg tp : List String)
    (p : Option String) (r : Option (List String)) :
    (addFile s f t tg tp p r).tags_index = updateIdxList s.tags_index f tg := rfl

theorem addFile_topics_index (s : IndexState) (f t : String) (tg tp : List String)
    (p : Option String) (r : Option (List String)) :
    (addFile s f t tg tp p r).topics_index = updateIdxList s.topics_index f tp := rfl

/-- The claimed invariant for the tag inverted index: a filename sits under a
tag exactly when its record carries that tag. -/
def TagIndexInvariant (s : IndexState) : Prop :=
  ∀ tag fn, fn ∈ findByTag s tag ↔ ∃ r, alistGet s.files fn = some r ∧ tag ∈ r.tags

/-- The claimed invariant for the topic inverted index. -/
def TopicIndexInvariant (s : IndexState) : Prop :=
  ∀ topic fn, fn ∈ findByTopic s topic ↔
    ∃ r, alistGet s.files fn = some r ∧ topic ∈ r.topics

theorem tagInv_addFile {s : IndexState} (hTag : TagIndexInvariant s)
    (f t : String) (tg tp : List String) (p : Option String) (r : Option (List String))
    (hfresh : alistGet s.files f = none) :
    TagIndexInvariant (addFile s f t tg tp p r) := by
  intro tag fn
  have hmem : fn ∈ findByTag (addFile s f t tg tp p r) tag ↔
      fn ∈ (alistGet s.tags_index tag).getD [] ∨ (tag ∈ tg ∧ fn = f) :=
    mem_updateIdxList s.tags_index f tg tag fn
  rw [hmem, addFile_files]
  by_cases hfn : fn = f
  · subst hfn
    rw [alistGet_alistSet_self]
    constructor
    · intro h2
      rcases h2 with h2 | h2
      · exfalso
        obtain ⟨rec, hrec, _⟩ := (hTag tag fn).mp h2
        rw [hfresh] at hrec
        exact Option.noConfusion hrec
      · exact ⟨mkRecord t tg tp p r, rfl, h2.1⟩
    · intro h2
      obtain ⟨rec, hrec, htag⟩ := h2
      injection hrec with h4
      rw [← h4] at htag
      exact Or.inr ⟨htag, rfl⟩
  · rw [alistGet_alistSet_ne _ _ hfn]
    constructor
    · intro h2
      rcases h2 with h2 | h2
      · exact (hTag tag fn).mp h2
      · exact absurd h2.2 hfn
    · intro h2
      exact Or.inl ((hTag tag fn).mpr h2)

theorem topicInv_addFile {s : IndexState} (hTopic : TopicIndexInvariant s)
    (f t : String) (tg tp : List String) (p : Option String) (r : Option (List String))
    (hfresh : alistGet s.files f = none) :
    TopicIndexInvariant (addFile s f t tg tp p r) := by
  intro topic fn
  have hmem : fn ∈ findByTopic (addFile s f t tg tp p r) topic ↔
      fn ∈ (alistGet s.topics_index topic).getD [] ∨ (topic ∈ tp ∧ fn = f) :=
    mem_updateIdxList s.topics_index f tp topic fn
  rw [hmem, addFile_files]
  by_cases hfn : fn = f
  · subst hfn
    rw [alistGet_alistSet_self]
    constructor
    · intro h2
      rcases h2 with h2 | h2
      · exfalso
        obtain ⟨rec, hrec, _⟩ := (hTopic topic fn).mp h2
        rw [hfresh] at hrec
        exact Option.noConfusion hrec
      · exact ⟨mkRecord t tg tp p r, rfl, h2.1⟩
    · intro h2
      obtain ⟨rec, hrec, htopic⟩ := h2
      injection hrec with h4
      rw [← h4] at htopic
      exact Or.inr ⟨htopic, rfl⟩
  · rw [alistGet_alistSet_ne _ _ hfn]
    constructor
    · intro h2
      rcases h2 with h2 | h2
      · exact (hTopic topic fn).mp h2
      · exact absurd h2.2 hfn
    · intro h2
      exact Or.inl ((hTopic topic fn).mpr h2)

theorem updateRelatedLinks_get (s : IndexState) (f : String) (rel : List String)
    (fn : String) :
    alistGet (updateRelatedLinks s f rel).files fn
      = match alistGet s.files f with
        | some rec => if fn = f then some { rec with related := rel }
                      else alistGet s.files fn
        | none => alistGet s.files fn := by
  unfold updateRelatedLinks
  cases hg : alistGet s.files f with
  | none => simp
  | some rec =>
    simp only
    by_cases hfn : fn = f
    · subst hfn
      rw [alistGet_alistSet_self, if_pos rfl]
    · rw [alistGet_alistSet_ne _ _ hfn, if_neg hfn]

theorem tagInv_updateRelatedLinks {s : IndexState} (hTag : TagIndexInvariant s)
    (f : String) (rel : List String) :
    TagIndexInvariant (updateRelatedLinks s f rel) := by
  intro tag fn
  have hidx : findByTag (updateRelatedLinks s f rel) tag = findByTag s tag := by
    unfold updateRelatedLinks
    cases alistGet s.files f <;> rfl
  rw [hidx, hTag tag fn, updateRelatedLinks_get]
  cases hg : alistGet s.files f with
  | none => simp
  | some rec =>
    simp only
    by_cases hfn : fn = f
    · subst hfn
      rw [if_pos rfl, hg]
      constructor
      · intro h2
        obtain ⟨r, hr, ht⟩ := h2
        injection hr with h4
        rw [← h4] at ht
        exact ⟨_, rfl, ht⟩
      · intro h2
        obtain ⟨r, hr, ht⟩ := h2
        injection hr with h4
        rw [← h4] at ht
        exact ⟨_, rfl, ht⟩
    · rw [if_neg hfn]

theorem topicInv_updateRelatedLinks {s : IndexState} (hTopic : TopicIndexInvariant s)
    (f : String) (rel : List String) :
    TopicIndexInvariant (updateRelatedLinks s f rel) := by
  intro topic fn
  have hidx : findByTopic (updateRelatedLinks s f rel) topic = findByTopic s topic := by
    unfold updateRelatedLinks
    cases alistGet s.files f <;> rfl
  rw [hidx, hTopic topic fn, updateRelatedLinks_get]
  cases hg : alistGet s.files f with
  | none => simp
  | some rec =>
    simp only
    by_cases hfn : fn = f
    · subst hfn
      rw [if_pos rfl, hg]
      constructor
      · intro h2
        obtain ⟨r, hr, ht⟩ := h2
        injection hr with h4
        rw [← h4] at ht
        exact ⟨_, rfl, ht⟩
      · intro h2
        obtain ⟨r, hr, ht⟩ := h2
        injection hr with h4
        rw [← h4] at ht
        exact ⟨_, rfl, ht⟩
    · rw [if_neg hfn]

/-- The Knowledge Index mutations named by the claim. -/
inductive IndexOp : Type
  | add (filename title : String) (tags topics : List String)
      (parent : Option String) (related : Option (List String))
  | updRelated (filename : String) (related : List String)
  | updBacklink (source target : String)

def applyOp (s : IndexState) : IndexOp → IndexState
  | IndexOp.add f t tg tp p r => addFile s f t tg tp p r
  | IndexOp.updRelated f r => updateRelatedLinks s f r
  | IndexOp.updBacklink src tgt => updateBacklinks s src tgt

def runOps (s : IndexState) (ops : List IndexOp) : IndexState := ops.foldl applyOp s

/-- Every `add` in the sequence is for a filename not present at that point
(the regime in which the claimed invariant actually holds). -/
def FreshAdds (s : IndexState) : List IndexOp → Prop
  | [] => True
  | op :: rest =>
    (match op with
     | IndexOp.add f _ _ _ _ _ => alistGet s.files f = none
     | _ => True) ∧ FreshAdds (applyOp s op) rest

/-- C2 counterexample: calling `add_file` a second time for an existing
filename with a different tag list breaks the invariant — the old tag still
lists the file, but the file's record no longer carries the tag. -/
theorem c2_index_invariant_counterexample :
    ¬ TagIndexInvariant (addFile (addFile emptyIndex "a.md" "A" ["x"] [] none none)
        "a.md" "A" ["y"] [] none none) := by
  intro h
  have h2 := (h "x" "a.md").mp (by decide)
  obtain ⟨r, hr, hx⟩ := h2
  have hr2 : alistGet (addFile (addFile emptyIndex "a.md" "A" ["x"] [] none none)
      "a.md" "A" ["y"] [] none none).files "a.md"
      = some { title := "A", tags := ["y"], topics := [], size_chars := 0
               parent := none, related := [] } := by decide
  rw [hr2] at hr
  injection hr with h4
  rw [← h4] at hx
  simp at hx

/-- C2 amended: the tag/topic inverted indices stay consistent with the
records under any sequence of `add_file` / `update_related_links` /
`update_backlinks`, provided every `add_file` in the sequence is for a
filename not already present (re-adding an existing filename can leave
stale index entries, see the counterexample). -/
theorem c2_index_invariant_amended (s : IndexState) (ops : List IndexOp)
    (hTag : TagIndexInvariant s) (hTopic : TopicIndexInvariant s)
    (hfresh : FreshAdds s ops) :
    TagIndexInvariant (runOps s ops) ∧ TopicIndexInvariant (runOps s ops) := by
  induction ops generalizing s with
  | nil => exact ⟨hTag, hTopic⟩
  | cons op rest ih =>
    simp only [FreshAdds] at hfresh
    obtain ⟨hop, hrest⟩ := hfresh
    cases op with
    | add f t tg tp p r =>
      exact ih (addFile s f t tg tp p r) (tagInv_addFile hTag f t tg tp p r hop)
        (topicInv_addFile hTopic f t tg tp p r hop) hrest
    | updRelated f rel =>
      exact ih (updateRelatedLinks s f rel) (tagInv_updateRelatedLinks hTag f rel)
        (topicInv_updateRelatedLinks hTopic f rel) hrest
    | updBacklink a b =>
      exact ih (updateBacklinks s a b) (fun tag fn => hTag tag fn)
        (fun topic fn => hTopic topic fn) hrest

theorem c2_index_invariant_amended_witness :
    TagIndexInvariant emptyIndex ∧ TopicIndexInvariant emptyIndex ∧
    FreshAdds emptyIndex
      [IndexOp.add "a.md" "A" ["x"] ["t"] none none,
       IndexOp.updBacklink "a.md" "b.md"] ∧
    (TagIndexInvariant (runOps emptyIndex
        [IndexOp.add "a.md" "A" ["x"] ["t"] none none,
         IndexOp.updBacklink "a.md" "b.md"]) ∧
     TopicIndexInvariant (runOps emptyIndex
        [IndexOp.add "a.md" "A" ["x"] ["t"] none none,
         IndexOp.updBacklink "a.md" "b.md"])) :=
  have hTag : TagIndexInvariant emptyIndex := by
    intro tag fn
    simp [findByTag, emptyIndex, alistGet]
  have hTopic : TopicIndexInvariant emptyIndex := by
    intro topic fn
    simp [findByTopic, emptyIndex, alistGet]
  have hfresh : FreshAdds emptyIndex
      [IndexOp.add "a.md" "A" ["x"] ["t"] none none,
       IndexOp.updBacklink "a.md" "b.md"] := ⟨rfl, trivial, trivial⟩
  ⟨hTag, hTopic, hfresh,
    c2_index_invariant_amended emptyIndex
      [IndexOp.add "a.md" "A" ["x"] ["t"] none none,
       IndexOp.updBacklink "a.md" "b.md"] hTag hTopic hfresh⟩

/-! ## `find_related_files` against the specified formula (claim C1) -/

/-- Jaccard similarity exactly as the specification words it:
`|A∩B| / |A∪B|`, defined as `0` when both sets are empty. -/
def jaccardSpec (A B : Finset String) : ℚ :=
  if A = ∅ ∧ B = ∅ then 0 else ((A ∩ B).card : ℚ) / ((A ∪ B).card : ℚ)

/-- The claimed score:
`0.6 * jaccard(tags_a, tags_b) + 0.4 * jaccard(topics_a, topics_b)`. -/
def claimScore (a b : FileRecord) : ℚ :=
  (6 / 10 : ℚ) * jaccardSpec a.tags.toFinset b.tags.toFinset
    + (4 / 10 : ℚ) * jaccardSpec a.topics.toFinset b.topics.toFinset

theorem jaccardPy_den_pos (a b : List String) : 0 < (jaccardPy a b).den := by
  unfold jaccardPy
  by_cases h : a.toFinset.Nonempty ∨ b.toFinset.Nonempty
  · rw [if_pos h]
    have hne : (a.toFinset ∪ b.toFinset).Nonempty := by
      rcases h with h | h
      · obtain ⟨x, hx⟩ := h
        exact ⟨x, Finset.mem_union_left _ hx⟩
      · obtain ⟨x, hx⟩ := h
        exact ⟨x, Finset.mem_union_right _ hx⟩
    have hc : 0 < (a.toFinset ∪ b.toFinset).card := Finset.card_pos.mpr hne
    show (0 : Int) < ((a.toFinset ∪ b.toFinset).card : Int)
    exact_mod_cast hc
  · rw [if_neg h]
    decide

theorem jaccardPy_toRat (a b : List String) :
    (jaccardPy a b).toRat = jaccardSpec a.toFinset b.toFinset := by
  unfold jaccardPy jaccardSpec
  by_cases h : a.toFinset.Nonempty ∨ b.toFinset.Nonempty
  · rw [if_pos h, if_neg ?_]
    · simp [Frac.toRat]
    · rintro ⟨h1, h2⟩
      rcases h with h | h
      · rw [h1] at h
        exact Finset.not_nonempty_empty h
      · rw [h2] at h
        exact Finset.not_nonempty_empty h
  · rw [if_neg h, if_pos ?_]
    · simp [Frac.toRat]
    · constructor
      · by_contra h1
        exact h (Or.inl (Finset.nonempty_iff_ne_empty.mpr h1))
      · by_contra h1
        exact h (Or.inr (Finset.nonempty_iff_ne_empty.mpr h1))

theorem pyRelevance_den_pos (a b : FileRecord) : 0 < (pyRelevance a b).den := by
  have h1 := jaccardPy_den_pos a.tags b.tags
  have h2 := jaccardPy_den_pos a.topics b.topics
  show 0 < ((jaccardPy a.tags b.tags).den * 10) * ((jaccardPy a.topics b.topics).den * 10)
  exact mul_pos (mul_pos h1 (by norm_num)) (mul_pos h2 (by norm_num))

theorem pyRelevance_toRat (a b : FileRecord) :
    (pyRelevance a b).toRat = claimScore a b := by
  have h1 := jaccardPy_den_pos a.tags b.tags
  have h2 := jaccardPy_den_pos a.topics b.topics
  have hm1 : ((jaccardPy a.tags b.tags).mul ⟨6, 10⟩).den ≠ 0 := by
    show (jaccardPy a.tags b.tags).den * (10 : Int) ≠ 0
    exact ne_of_gt (mul_pos h1 (by norm_num))
  have hm2 : ((jaccardPy a.topics b.topics).mul ⟨4, 10⟩).den ≠ 0 := by
    show (jaccardPy a.topics b.topics).den * (10 : Int) ≠ 0
    exact ne_of_gt (mul_pos h2 (by norm_num))
  have h10 : ((⟨6, 10⟩ : Frac)).den ≠ 0 := by
    show (10 : Int) ≠ 0
    norm_num
  have h10b : ((⟨4, 10⟩ : Frac)).den ≠ 0 := by
    show (10 : Int) ≠ 0
    norm_num
  unfold pyRelevance
  rw [Frac.toRat_add hm1 hm2, Frac.toRat_mul (ne_of_gt h1) h10,
    Frac.toRat_mul (ne_of_gt h2) h10b, jaccardPy_toRat, jaccardPy_toRat]
  have e1 : (Frac.toRat ⟨6, 10⟩) = 6 / 10 := by
    norm_num [Frac.toRat]
  have e2 : (Frac.toRat ⟨4, 10⟩) = 4 / 10 := by
    norm_num [Frac.toRat]
  rw [e1, e2]
  unfold claimScore
  ring

theorem fle_total (a b : Frac) (h : ¬ a.fle b = true) : b.fle a = true := by
  unfold Frac.fle at *
  simp only [decide_eq_true_eq] at *
  push_neg at h
  exact le_of_lt h

theorem insertDesc_perm (x : String × Frac) (l : List (String × Frac)) :
    (insertDesc x l).Perm (x :: l) := by
  induction l with
  | nil => exact List.Perm.refl _
  | cons y ys ih =>
    simp only [insertDesc]
    cases h : x.2.fle y.2 with
    | false => simp
    | true =>
      simp only [if_true]
      exact (ih.cons y).trans (List.Perm.swap x y ys)

theorem insertDesc_sorted_toRat (x : String × Frac) (l : List (String × Frac))
    (hx : 0 < x.2.den) (hl : ∀ p ∈ l, 0 < p.2.den)
    (h : l.Pairwise (fun a b => b.2.toRat ≤ a.2.toRat)) :
    (insertDesc x l).Pairwise (fun a b => b.2.toRat ≤ a.2.toRat) := by
  induction l with
  | nil => exact List.pairwise_singleton _ x
  | cons y ys ih =>
    have hy0 : 0 < y.2.den := hl y (List.mem_cons_self _ _)
    have hys0 : ∀ p ∈ ys, 0 < p.2.den := fun p hp => hl p (List.mem_cons_of_mem _ hp)
    cases h with
    | cons hy hys =>
      simp only [insertDesc]
      cases hc : x.2.fle y.2 with
      | true =>
        simp only [if_true]
        refine List.Pairwise.cons ?_ (ih hys0 hys)
        intro b hb
        rw [(insertDesc_perm x ys).mem_iff, List.mem_cons] at hb
        rcases hb with rfl | hb
        · exact (Frac.fle_iff_toRat hx hy0).mp hc
        · exact hy b hb
      | false =>
        simp only [Bool.false_eq_true, if_false]
        refine List.Pairwise.cons ?_ (List.Pairwise.cons hy hys)
        intro b hb
        have hyx : y.2.toRat ≤ x.2.toRat := by
          have := fle_total x.2 y.2 (by rw [hc]; exact Bool.false_ne_true)
          exact (Frac.fle_iff_toRat hy0 hx).mp this
        rcases List.mem_cons.mp hb with rfl | hb
        · exact hyx
        · exact le_trans (hy b hb) hyx

theorem sortDesc_aux (l : List (String × Frac)) :
    ∀ acc, (∀ p ∈ l, 0 < p.2.den) → (∀ p ∈ acc, 0 < p.2.den) →
      acc.Pairwise (fun a b => b.2.toRat ≤ a.2.toRat) →
      (l.foldl (fun acc x => insertDesc x acc) acc).Pairwise
        (fun a b => b.2.toRat ≤ a.2.toRat) := by
  induction l with
  | nil =>
    intro acc _ _ hs
    exact hs
  | cons x xs ih =>
    intro acc hl hacc hs
    have hx : 0 < x.2.den := hl x (List.mem_cons_self _ _)
    have hxs : ∀ p ∈ xs, 0 < p.2.den := fun p hp => hl p (List.mem_cons_of_mem _ hp)
    have hacc2 : ∀ p ∈ insertDesc x acc, 0 < p.2.den := by
      intro p hp
      rw [(insertDesc_perm x acc).mem_iff, List.mem_cons] at hp
      rcases hp with rfl | hp
      · exact hx
      · exact hacc p hp
    exact ih (insertDesc x acc) hxs hacc2 (insertDesc_sorted_toRat x acc hx hacc hs)

theorem sortDescBySnd_sorted (l : List (String × Frac)) (hl : ∀ p ∈ l, 0 < p.2.den) :
    (sortDescBySnd l).Pairwise (fun a b => b.2.toRat ≤ a.2.toRat) :=
  sortDesc_aux l [] hl (by simp) List.Pairwise.nil

theorem sortDescBySnd_perm (l : List (String × Frac)) : (sortDescBySnd l).Perm l := by
  suffices h : ∀ acc, (l.foldl (fun acc x => insertDesc x acc) acc).Perm (acc ++ l) by
    simpa using h []
  induction l with
  | nil =>
    intro acc
    simp
  | cons x xs ih =>
    intro acc
    have h1 : (List.foldl (fun acc x => insertDesc x acc) (insertDesc x acc) xs).Perm
        (insertDesc x acc ++ xs) := ih _
    have h2 : (insertDesc x acc ++ xs).Perm ((x :: acc) ++ xs) :=
      (insertDesc_perm x acc).append_right xs
    have h3 : ((x :: acc) ++ xs).Perm (acc ++ x :: xs) := List.perm_middle.symm
    exact (h1.trans h2).trans h3

theorem relatedCandidates_eq_filterMap (s : IndexState) (filename : String)
    (cur : FileRecord) (minR : Frac) :
    relatedCandidates s filename cur minR
      = s.files.filterMap (fun p =>
          if p.1 = filename then none
          else if minR.fle (pyRelevance cur p.2) then some (p.1, pyRelevance cur p.2)
          else none) := by
  unfold relatedCandidates
  suffices h : ∀ (fs : List (String × FileRecord)) (acc : List (String × Frac)),
      fs.foldl
        (fun acc p =>
          if p.1 = filename then acc
          else
            let rel := pyRelevance cur p.2
            if minR.fle rel then acc ++ [(p.1, rel)] else acc)
        acc
      = acc ++ fs.filterMap (fun p =>
          if p.1 = filename then none
          else if minR.fle (pyRelevance cur p.2) then some (p.1, pyRelevance cur p.2)
          else none) by
    simpa using h s.files []
  intro fs
  induction fs with
  | nil =>
    intro acc
    simp
  | cons p ps ih =>
    intro acc
    by_cases h1 : p.1 = filename
    · simp only [List.foldl_cons, List.filterMap_cons, if_pos h1]
      exact ih acc
    · by_cases h2 : minR.fle (pyRelevance cur p.2) = true
      · simp only [List.foldl_cons, List.filterMap_cons, if_neg h1, if_pos h2]
        rw [ih (acc ++ [(p.1, pyRelevance cur p.2)])]
        simp
      · simp only [List.foldl_cons, List.filterMap_cons, if_neg h1, if_neg h2]
        exact ih acc

theorem mem_relatedCandidates {s : IndexState} (hnd : (s.files.map Prod.fst).Nodup)
    (filename : String) (cur : FileRecord) (minR : Frac) (g : String) (q : Frac) :
    (g, q) ∈ relatedCandidates s filename cur minR ↔
      (g ≠ filename ∧ ∃ rec, alistGet s.files g = some rec ∧
        q = pyRelevance cur rec ∧ minR.fle q = true) := by
  rw [relatedCandidates_eq_filterMap, List.mem_filterMap]
  constructor
  · rintro ⟨p, hp, hf⟩
    obtain ⟨pg, prec⟩ := p
    by_cases h1 : pg = filename
    · rw [if_pos h1] at hf
      exact Option.noConfusion hf
    · rw [if_neg h1] at hf
      by_cases h2 : minR.fle (pyRelevance cur prec) = true
      · rw [if_pos h2] at hf
        injection hf with hf2
        have hg : pg = g := congrArg Prod.fst hf2
        have hq : pyRelevance cur prec = q := congrArg Prod.snd hf2
        subst hg
        refine ⟨h1, prec, ?_, hq.symm, by rw [← hq]; exact h2⟩
        exact (mem_iff_alistGet hnd pg prec).mp hp
      · rw [if_neg h2] at hf
        exact Option.noConfusion hf
  · rintro ⟨hne, rec, hrec, rfl, hmin⟩
    refine ⟨(g, rec), (mem_iff_alistGet hnd g rec).mpr hrec, ?_⟩
    rw [if_neg hne, if_pos hmin]

/-- C1: on any well-formed index (distinct filenames) containing `filename`,
`find_related_files` never returns `filename` itself; every returned score
is the claimed `0.6 * jaccard(tags) + 0.4 * jaccard(topics)` of the stored
records and meets the threshold; the result is sorted by descending score
and has length at most `maxResults`; and it is exactly the truncation of
the descending sort of the per-record candidate list, which contains an
entry for precisely the other records whose score meets the threshold. -/
theorem c1_find_related_files_spec (s : IndexState) (filename : String)
    (maxResults : Nat) (minR : Frac) (cur : FileRecord)
    (hnd : (s.files.map Prod.fst).Nodup)
    (hcur : alistGet s.files filename = some cur)
    (hden : 0 < minR.den) :
    (∀ p ∈ findRelatedFiles s filename maxResults minR, p.1 ≠ filename) ∧
    (∀ p ∈ findRelatedFiles s filename maxResults minR,
        ∃ rec, alistGet s.files p.1 = some rec ∧
          p.2.toRat = claimScore cur rec ∧ minR.toRat ≤ p.2.toRat) ∧
    ((findRelatedFiles s filename maxResults minR).Pairwise
        (fun a b => b.2.toRat ≤ a.2.toRat)) ∧
    ((findRelatedFiles s filename maxResults minR).length ≤ maxResults) ∧
    (findRelatedFiles s filename maxResults minR
        = (sortDescBySnd (relatedCandidates s filename cur minR)).take maxResults) ∧
    (∀ g q, (g, q) ∈ relatedCandidates s filename cur minR ↔
        (g ≠ filename ∧ ∃ rec, alistGet s.files g = some rec ∧
          q = pyRelevance cur rec ∧ minR.toRat ≤ q.toRat)) := by
  have hfrf : findRelatedFiles s filename maxResults minR
      = (sortDescBySnd (relatedCandidates s filename cur minR)).take maxResults := by
    unfold findRelatedFiles
    rw [hcur]
  have hmemc : ∀ p ∈ findRelatedFiles s filename maxResults minR,
      p ∈ relatedCandidates s filename cur minR := by
    intro p hp
    rw [hfrf] at hp
    exact ((sortDescBySnd_perm _).mem_iff).mp (List.mem_of_mem_take hp)
  have hchar : ∀ g q, (g, q) ∈ relatedCandidates s filename cur minR ↔
      (g ≠ filename ∧ ∃ rec, alistGet s.files g = some rec ∧
        q = pyRelevance cur rec ∧ minR.toRat ≤ q.toRat) := by
    intro g q
    rw [mem_relatedCandidates hnd]
    constructor
    · rintro ⟨hne, rec, hrec, rfl, hmin⟩
      exact ⟨hne, rec, hrec, rfl,
        (Frac.fle_iff_toRat hden (pyRelevance_den_pos cur rec)).mp hmin⟩
    · rintro ⟨hne, rec, hrec, rfl, hmin⟩
      exact ⟨hne, rec, hrec, rfl,
        (Frac.fle_iff_toRat hden (pyRelevance_den_pos cur rec)).mpr hmin⟩
  have hposden : ∀ p ∈ relatedCandidates s filename cur minR, 0 < p.2.den := by
    intro p hp
    obtain ⟨pg, pq⟩ := p
    obtain ⟨_, rec, _, hrel, _⟩ := (mem_relatedCandidates hnd filename cur minR pg pq).mp hp
    rw [hrel]
    exact pyRelevance_den_pos cur rec
  refine ⟨?_, ?_, ?_, ?_, hfrf, hchar⟩
  · intro p hp
    obtain ⟨pg, pq⟩ := p
    obtain ⟨hne, _⟩ := ((hchar pg pq).mp (hmemc _ hp))
    exact hne
  · intro p hp
    obtain ⟨pg, pq⟩ := p
    obtain ⟨_, rec, hrec, hrel, hmin⟩ := ((hchar pg pq).mp (hmemc _ hp))
    refine ⟨rec, hrec, ?_, hmin⟩
    rw [hrel, pyRelevance_toRat]
  · rw [hfrf]
    exact ((sortDescBySnd_sorted _ hposden).sublist (List.take_sublist _ _))
  · rw [hfrf]
    exact List.length_take_le _ _

/-! ## Link inferencer (`link_generator.py`)

String scanning is done on the underlying character lists.  The two
regex-driven loops that re-scan from a moved position are written with an
explicit fuel argument equal to the length of the remaining text; every
step consumes at least one character, so the fuel never runs out. -/

/-- Python's `needle in hay` substring test. -/
def strContains (needle hay : String) : Bool :=
  hay.data.tails.any (fun t => needle.data.isPrefixOf t)

/-- The scan of `re.findall(r'\*\*([^*]+)\*\*', content)`: at `**`, the
greedy `[^*]+` takes the maximal run of non-asterisk characters, which must
be non-empty and followed by `**`; on failure the scan resumes one
character further right, on success after the consumed match. -/
def findBoldAux : Nat → List Char → List String
  | 0, _ => []
  | _ + 1, [] => []
  | fuel + 1, '*' :: '*' :: rest =>
    (let run := rest.takeWhile (fun c => c ≠ '*')
     let rest2 := rest.dropWhile (fun c => c ≠ '*')
     match run, rest2 with
     | _ :: _, '*' :: '*' :: tail => String.mk run :: findBoldAux fuel tail
     | _, _ => findBoldAux fuel ('*' :: rest))
  | fuel + 1, _ :: rest => findBoldAux fuel rest

/-- `LinkGenerator.extract_mentions`: the lowercased text of every bold
span, in order of appearance. -/
def extractMentions (content : String) : List String :=
  (findBoldAux content.data.length content.data).map
    (fun s => String.mk (s.data.map Char.toLower))

/-- An opportunity `(target_file, anchor_text, confidence)`. -/
abbrev Opportunity := String × Option String × Frac

/-- `LinkGenerator.find_link_opportunities`.  The `min_relevance` parameter
is accepted, as in the source, but never read: the relatedness lookup uses
the `find_related_files` defaults `(5, 0.3)`. -/
def findLinkOpportunities (s : IndexState) (filename content : String)
    (min_relevance : Frac) : List Opportunity :=
  let mentions := extractMentions content
  let fromMentions :=
    mentions.foldl (fun acc mention =>
      s.topics_index.foldl (fun acc2 p =>
        if strContains mention p.1 || strContains p.1 mention then
          acc2 ++ (p.2.filter (fun tf => tf ≠ filename)).map
            (fun tf => (tf, some mention, (⟨8, 10⟩ : Frac)))
        else acc2) acc) []
  fromMentions ++ (findRelatedFiles s filename 5 ⟨3, 10⟩).map
    (fun p => (p.1, none, p.2))

/-- Leftmost single literal replacement: `re.sub(pattern, repl, s, count=1)`
for the escaped (hence literal) pattern built in `generate_links_in_content`. -/
def replaceFirst (hay pat repl : List Char) : List Char :=
  match hay with
  | [] => []
  | c :: rest =>
    if pat.isPrefixOf (c :: rest) then repl ++ (c :: rest).drop pat.length
    else c :: replaceFirst rest pat repl

/-- `target_file.replace(".md", "")`: remove every occurrence. -/
def removeMd : List Char → List Char
  | '.' :: 'm' :: 'd' :: rest => removeMd rest
  | c :: rest => c :: removeMd rest
  | [] => []

/-- `IndexManager.get_file_info`. -/
def getFileInfo (s : IndexState) (filename : String) : Option FileRecord :=
  alistGet s.files filename

/-- The lookahead point of `re.sub(r'## Related Topics\n.*?(?=\n##|\Z)', ...)`:
drop the shortest prefix (the lazy `.*?`) after which the text starts with
`\n##` or has ended. -/
def lazyRest (l : List Char) : List Char :=
  match l with
  | [] => []
  | c :: rest =>
    if ['\n', '#', '#'].isPrefixOf (c :: rest) then c :: rest
    else lazyRest rest

/-- The full `re.sub` of `_add_related_section`: replace every
non-overlapping match of `## Related Topics\n` plus its lazy span (the
lookahead part is not consumed, and the replacement text is not
re-scanned). -/
def subRelatedAux (repl : List Char) : Nat → List Char → List Char
  | 0, l => l
  | _ + 1, [] => []
  | fuel + 1, c :: rest =>
    if ("## Related Topics\n".data).isPrefixOf (c :: rest) then
      repl ++ subRelatedAux repl fuel (lazyRest ((c :: rest).drop 18))
    else c :: subRelatedAux repl fuel rest

/-- `LinkGenerator._add_related_section`. -/
def addRelatedSection (s : IndexState) (content : String) (filename : String)
    (opportunities : List Opportunity) : String :=
  let entries := (opportunities.foldl
    (fun (acc : String × List String) o =>
      if !acc.2.contains o.1 && Frac.flt ⟨4, 10⟩ o.2.2 then
        let target_name := String.mk (removeMd o.1.data)
        let target_title := match getFileInfo s o.1 with
          | some r => r.title
          | none => target_name
        (acc.1 ++ "- [[" ++ target_name ++ "]] - " ++ target_title ++ "\n",
         acc.2 ++ [o.1])
      else acc)
    ("", [])).1
  let related_section := "\n## Related Topics\n" ++ entries
  if strContains "## Related Topics" content then
    String.mk (subRelatedAux related_section.data content.data.length content.data)
  else content ++ related_section

/-- `LinkGenerator.generate_links_in_content` (the pipeline calls it with
`auto_link_min_confidence = 0.6`). -/
def generateLinksInContent (s : IndexState) (filename content : String)
    (autoLinkMinConfidence : Frac) : String :=
  let opportunities := findLinkOpportunities s filename content ⟨4, 10⟩
  let step := opportunities.foldl
    (fun (acc : String × List String) o =>
      match o.2.1 with
      | some anchor_text =>
        if autoLinkMinConfidence.fle o.2.2 then
          if anchor_text = "" then acc
          else
            let anchor_without_ext := String.mk (removeMd o.1.data)
            let pat := "**" ++ anchor_text ++ "**"
            let repl := "[[" ++ anchor_without_ext ++ "|" ++ anchor_text ++ "]]"
            if strContains pat acc.1 then
              (String.mk (replaceFirst acc.1.data pat.data repl.data), acc.2 ++ [o.1])
            else acc
        else acc
      | none => acc)
    (content, [])
  if step.2 ≠ [] ∨ opportunities ≠ [] then
    addRelatedSection s step.1 filename opportunities
  else step.1

/-- C10: the `min_relevance` parameter of `find_link_opportunities` has no
effect on its output — the body never reads it, performing the relatedness
lookup with the built-in defaults. -/
theorem c10_min_relevance_unused (s : IndexState) (filename content : String)
    (v1 v2 : Frac) :
    findLinkOpportunities s filename content v1
      = findLinkOpportunities s filename content v2 := rfl

/-- An index holding one file indexed under the topic `"derivative"`. -/
def c4state : IndexState :=
  { files := [("deriv.md", ⟨"Derivative", [], ["derivative"], 0, none, []⟩)]
    topics_index := [("derivative", ["deriv.md"])]
    tags_index := []
    backlinks := []
    stats_total_files := 1
    stats_total_links := 0 }

/-- C4 (evaluation of the code at its failing input): with a file indexed
under topic `"derivative"`, `generate_links_in_content` on a body holding
the span `**Derivative**` converts nothing — the substitution pattern is
built from the lowercased mention and never matches the capitalised span;
only the related-topics section is appended.  With the already-lowercase
span `**derivative**` the very same call does convert exactly one
occurrence, which is the behaviour the claim describes. -/
theorem c4_generate_links_case_mismatch :
    (generateLinksInContent c4state "note.md" "The **Derivative** rules." ⟨6, 10⟩
      = "The **Derivative** rules.\n## Related Topics\n- [[deriv]] - Derivative\n") ∧
    (strContains "**Derivative**"
      (generateLinksInContent c4state "note.md" "The **Derivative** rules." ⟨6, 10⟩)
        = true) ∧
    (strContains "[[deriv|"
      (generateLinksInContent c4state "note.md" "The **Derivative** rules." ⟨6, 10⟩)
        = false) ∧
    (generateLinksInContent c4state "note.md" "The **derivative** rules." ⟨6, 10⟩
      = "The [[deriv|derivative]] rules.\n## Related Topics\n- [[deriv]] - Derivative\n") := by
  decide

/-- Two files sharing the tag `"x"` (score `0.6` between them). -/
def twoFileState : IndexState :=
  { files := [("a.md", ⟨"A", ["x"], [], 0, none, []⟩),
              ("b.md", ⟨"B", ["x"], [], 0, none, []⟩)]
    topics_index := []
    tags_index := [("x", ["a.md", "b.md"])]
    backlinks := []
    stats_total_files := 2
    stats_total_links := 0 }

/-- C5 counterexample: with a fixed index state, applying
`generate_links_in_content` twice does not reproduce the first result, so
repeated calls do not converge to a fixed point of the enriched body. -/
theorem c5_not_idempotent_counterexample :
    generateLinksInContent twoFileState "a.md"
        (generateLinksInContent twoFileState "a.md" "Hello" ⟨6, 10⟩) ⟨6, 10⟩
      ≠ generateLinksInContent twoFileState "a.md" "Hello" ⟨6, 10⟩ := by
  decide

/-- C5 amended: the second application regenerates a "Related Topics"
section with the identical entry list, but the substitution's replacement
text starts with a newline while the matched region does not, so every
reapplication inserts one more blank line before the section heading — the
section content converges, the enriched body never does. -/
theorem c5_related_section_amended :
    (generateLinksInContent twoFileState "a.md" "Hello" ⟨6, 10⟩
        = "Hello" ++ "\n## Related Topics\n- [[b]] - B\n") ∧
    (generateLinksInContent twoFileState "a.md"
        ("Hello" ++ "\n## Related Topics\n- [[b]] - B\n") ⟨6, 10⟩
        = "Hello" ++ "\n" ++ "\n## Related Topics\n- [[b]] - B\n") ∧
    (generateLinksInContent twoFileState "a.md"
        ("Hello" ++ "\n" ++ "\n## Related Topics\n- [[b]] - B\n") ⟨6, 10⟩
        = "Hello" ++ "\n\n" ++ "\n## Related Topics\n- [[b]] - B\n") := by
  decide

/-- The record stored for `"a.md"` in `twoFileState`. -/
def twoFileRecA : FileRecord := ⟨"A", ["x"], [], 0, none, []⟩

theorem c1_find_related_files_spec_witness :
    ((twoFileState.files.map Prod.fst).Nodup) ∧
    (alistGet twoFileState.files "a.md" = some twoFileRecA) ∧
    (0 < ((⟨3, 10⟩ : Frac)).den) ∧
    ((∀ p ∈ findRelatedFiles twoFileState "a.md" 5 ⟨3, 10⟩, p.1 ≠ "a.md") ∧
     (∀ p ∈ findRelatedFiles twoFileState "a.md" 5 ⟨3, 10⟩,
         ∃ rec, alistGet twoFileState.files p.1 = some rec ∧
           p.2.toRat = claimScore twoFileRecA rec ∧
           Frac.toRat ⟨3, 10⟩ ≤ p.2.toRat) ∧
     ((findRelatedFiles twoFileState "a.md" 5 ⟨3, 10⟩).Pairwise
         (fun a b => b.2.toRat ≤ a.2.toRat)) ∧
     ((findRelatedFiles twoFileState "a.md" 5 ⟨3, 10⟩).length ≤ 5) ∧
     (findRelatedFiles twoFileState "a.md" 5 ⟨3, 10⟩
         = (sortDescBySnd (relatedCandidates twoFileState "a.md" twoFileRecA
             ⟨3, 10⟩)).take 5) ∧
     (∀ g q, (g, q) ∈ relatedCandidates twoFileState "a.md" twoFileRecA ⟨3, 10⟩ ↔
         (g ≠ "a.md" ∧ ∃ rec, alistGet twoFileState.files g = some rec ∧
           q = pyRelevance twoFileRecA rec ∧ Frac.toRat ⟨3, 10⟩ ≤ q.toRat))) :=
  ⟨by decide, by decide, by decide,
    c1_find_related_files_spec twoFileState "a.md" 5 ⟨3, 10⟩ twoFileRecA
      (by decide) (by decide) (by decide)⟩

/-! ## Filename derivation and metadata parsing (`pipeline.py`) -/

/-- Python's whitespace class (`\s`, `str.strip()`, `str.split()`). -/
def isPySpace (c : Char) : Bool :=
  c == ' ' || c == '\t' || c == '\n' || c == '\r' || c == '\x0b' || c == '\x0c'

/-- `\w` on ASCII input: letters, digits, underscore. -/
def isWordChar (c : Char) : Bool := c.isAlphanum || c == '_'

/-- `re.sub(r'[-\s]+', '-', s)`: every maximal run of hyphens/whitespace
becomes one hyphen (the flag records whether we are inside a run). -/
def collapseRunsAux : Bool → List Char → List Char
  | _, [] => []
  | inRun, c :: rest =>
    if isPySpace c || c == '-' then
      if inRun then collapseRunsAux true rest else '-' :: collapseRunsAux true rest
    else c :: collapseRunsAux false rest

/-- `str.strip("-")`. -/
def stripDashes (l : List Char) : List Char :=
  ((l.dropWhile (fun c => c == '-')).reverse.dropWhile (fun c => c == '-')).reverse

/-- `KnowledgeBasePipeline._sanitize_filename`: drop characters outside
`[\w\s-]`, collapse hyphen/whitespace runs to one hyphen, lowercase, trim
hyphens. -/
def sanitizeFilename (filename : String) : String :=
  let step1 := filename.data.filter (fun c => isWordChar c || isPySpace c || c == '-')
  let step2 := collapseRunsAux false step1
  String.mk (stripDashes (step2.map Char.toLower))

/-- Split on a character class, keeping empty parts (Python `split(sep)`). -/
def splitOnPred (p : Char → Bool) : List Char → List (List Char)
  | [] => [[]]
  | c :: rest =>
    match splitOnPred p rest with
    | [] => [[]]
    | h :: t => if p c then [] :: h :: t else (c :: h) :: t

/-- Python `str.split()` with no separator: whitespace runs, empties
dropped. -/
def pySplitWs (s : String) : List String :=
  ((splitOnPred isPySpace s.data).filter (fun w => w ≠ [])).map String.mk

/-- Python `"-".join`. -/
def joinHyphen : List String → String
  | [] => ""
  | [w] => w
  | w :: rest => w ++ "-" ++ joinHyphen rest

/-- `KnowledgeBasePipeline._create_filename_from_topic`. -/
def createFilenameFromTopic (main_topic title : String) : String :=
  let topic_clean := sanitizeFilename main_topic
  let title_words := pySplitWs title
  let title_clean := sanitizeFilename title
  if title_clean ≠ "" ∧ title_clean ≠ topic_clean then
    let key_words := (title_words.filter
      (fun w => decide (3 < w.length) && !strContains w main_topic)).take 2
    if key_words ≠ [] then
      topic_clean ++ "-" ++ joinHyphen (key_words.map sanitizeFilename)
    else topic_clean
  else topic_clean

/-- `str.strip()` on the character list. -/
def pyStripList (l : List Char) : List Char :=
  ((l.dropWhile isPySpace).reverse.dropWhile isPySpace).reverse

/-- Python `str.strip()`. -/
def pyStrip (s : String) : String := String.mk (pyStripList s.data)

/-- Python `str.lower()` (ASCII). -/
def lowerStr (s : String) : String := String.mk (s.data.map Char.toLower)

/-- The quote characters of `strip("\"'")` (the apostrophe is `Char.ofNat 39`). -/
def isQuoteChar (c : Char) : Bool := c == '"' || c == Char.ofNat 39

/-- `value.strip("\"'")`. -/
def stripQuotes (s : String) : String :=
  String.mk (((s.data.dropWhile isQuoteChar).reverse.dropWhile isQuoteChar).reverse)

/-- `line.split(":", 1)`: text before and after the first colon, `none` when
the line has no colon. -/
def splitFirstColon : List Char → Option (List Char × List Char)
  | [] => none
  | c :: rest =>
    if c = ':' then some ([], rest)
    else
      match splitFirstColon rest with
      | some (pre, post) => some (c :: pre, post)
      | none => none

/-- `[item.strip().strip("\"'") for item in inner.split(",")]`. -/
def parseBracketItems (inner : List Char) : List String :=
  (splitOnPred (fun c => c == ',') inner).map
    (fun item => stripQuotes (pyStrip (String.mk item)))

/-- Python `str.isdigit()` (ASCII digits). -/
def pyIsDigit (s : String) : Bool := !s.data.isEmpty && s.data.all Char.isDigit

/-- Decimal reading of an all-digit string. -/
def strToInt (s : String) : Int :=
  Int.ofNat (s.data.foldl (fun n c => n * 10 + (c.toNat - 48)) 0)

/-- A frontmatter value as produced by the parsers. -/
inductive FmValue : Type
  | str (s : String)
  | list (l : List String)
  | bool (b : Bool)
  | int (n : Int)
deriving DecidableEq

/-- A frontmatter mapping (Python dict). -/
abbrev Frontmatter := List (String × FmValue)

/-- `KnowledgeBasePipeline._parse_frontmatter_fallback`. -/
def parseFrontmatterFallback (frontmatter_text : String) : Frontmatter :=
  (splitOnPred (fun c => c == '\n') (pyStrip frontmatter_text).data).foldl
    (fun fm line =>
      match splitFirstColon line with
      | none => fm
      | some (keyRaw, valRaw) =>
        let key := pyStrip (String.mk keyRaw)
        let value := stripQuotes (pyStrip (String.mk valRaw))
        if value.data.head? = some '[' ∧ value.data.getLast? = some ']' then
          alistSet fm key (FmValue.list (parseBracketItems ((value.data.drop 1).dropLast)))
        else if lowerStr value = "true" then alistSet fm key (FmValue.bool true)
        else if lowerStr value = "false" then alistSet fm key (FmValue.bool false)
        else if pyIsDigit value then alistSet fm key (FmValue.int (strToInt value))
        else alistSet fm key (FmValue.str value))
    []

/-- Modelled from the spec: the strict-block mapping parse (§4.1 steps 2
and 4).  The source hands the matched block to the external `yaml` library,
which is not part of this repository, and falls back to
`_parse_frontmatter_fallback` if that raises; the specification describes
the block as a `key: value` mapping read under the step-4 coercion rules
(strip surrounding quotes, split bracketed values on commas into trimmed
items, keep unrecognised keys verbatim), which is exactly what the in-repo
fallback parser computes, so the model reuses it; being total, the
`except` branch is unreachable. -/
def yamlSafeLoadModel (text : String) : Frontmatter := parseFrontmatterFallback text

/-- The line loop of `_extract_frontmatter_from_content`; returns the
accumulated frontmatter and `content_start`. -/
def effLoop : List (List Char) → Nat → Frontmatter → Nat → (Frontmatter × Nat)
  | [], _, fm, cs => (fm, cs)
  | line :: rest, i, fm, cs =>
    match splitFirstColon line with
    | some (keyRaw, valRaw) =>
      if line.head? = some '#' then (fm, cs)
      else
        let key := lowerStr (pyStrip (String.mk keyRaw))
        let value := pyStrip (String.mk valRaw)
        if key = "title" ∨ key = "main_topic" ∨ key = "date" ∨ key = "summary" then
          effLoop rest (i + 1) (alistSet fm key (FmValue.str (stripQuotes value))) (i + 1)
        else if key = "tags" then
          let fm2 :=
            if value.data.head? = some '[' ∧ value.data.getLast? = some ']' then
              alistSet fm "tags"
                (FmValue.list (parseBracketItems ((value.data.drop 1).dropLast)))
            else alistSet fm "tags" (FmValue.list [stripQuotes value])
          effLoop rest (i + 1) fm2 (i + 1)
        else effLoop rest (i + 1) fm cs
    | none =>
      if line.head? = some '#' then (fm, cs)
      else effLoop rest (i + 1) fm cs

/-- `"\n".join`. -/
def joinLines : List (List Char) → List Char
  | [] => []
  | [l] => l
  | l :: rest => l ++ '\n' :: joinLines rest

/-- The default frontmatter of step 4. -/
def defaultFrontmatter : Frontmatter :=
  [("title", FmValue.str "Untitled"), ("tags", FmValue.list []),
   ("main_topic", FmValue.str "general")]

/-- `KnowledgeBasePipeline._extract_frontmatter_from_content`. -/
def extractFrontmatterFromContent (content : String) : Frontmatter × String :=
  let lines := splitOnPred (fun c => c == '\n') content.data
  let r := effLoop lines 0 [] 0
  if r.1 ≠ [] then
    (r.1, pyStrip (String.mk (joinLines (lines.drop r.2))))
  else (defaultFrontmatter, content)

/-- First occurrence split: `some (before, after)` around the leftmost match
of `pat`. -/
def splitAtPat (pat : List Char) : List Char → Option (List Char × List Char)
  | [] => if pat.isPrefixOf [] then some ([], []) else none
  | c :: rest =>
    if pat.isPrefixOf (c :: rest) then some ([], (c :: rest).drop pat.length)
    else
      match splitAtPat pat rest with
      | some (pre, post) => some (c :: pre, post)
      | none => none

/-- `KnowledgeBasePipeline._parse_response`.  The anchored lazy regex
`^---\n(.*?)\n---\n(.*)$` (DOTALL) matches iff the fence-stripped text
starts with `---\n` and contains `\n---\n` later; group 1 is the text up to
the first such separator, group 2 the rest. -/
def parseResponse (raw_output : String) : Frontmatter × String :=
  let r0 := pyStrip raw_output
  let r1 := if ("```markdown".data).isPrefixOf r0.data
            then pyStrip (String.mk (r0.data.drop 11)) else r0
  let r2 := if ("```".data).isSuffixOf r1.data
            then pyStrip (String.mk (r1.data.take (r1.data.length - 3))) else r1
  if ("---\n".data).isPrefixOf r2.data then
    match splitAtPat ("\n---\n".data) (r2.data.drop 4) with
    | some (fmText, content) =>
      (yamlSafeLoadModel (String.mk fmText), String.mk content)
    | none => extractFrontmatterFromContent r2
  else extractFrontmatterFromContent r2

/-- The filename-selection logic of `process_document` (`pipeline.py`
lines 56-65): a truthy `main_topic` routes through the Filename Deriver on
the lowercased, stripped topic and title; otherwise the caller-supplied
`output_filename` is used when truthy, else the sanitised title, which
defaults to the document's original filename. -/
def chooseFilename (fm_main_topic fm_title : Option String)
    (output_filename : Option String) (original_filename : String) : String :=
  let fallback :=
    match output_filename with
    | some o => if o ≠ "" then o
                else sanitizeFilename (fm_title.getD original_filename)
    | none => sanitizeFilename (fm_title.getD original_filename)
  match fm_main_topic with
  | some mt =>
    if mt ≠ "" then
      createFilenameFromTopic (pyStrip (lowerStr mt))
        (pyStrip (lowerStr (fm_title.getD "")))
    else fallback
  | none => fallback

/-- The word selection the claim describes: up to two words of the title of
length greater than three that are not substrings of the main topic. -/
def keyWords (main_topic title : String) : List String :=
  ((pySplitWs title).filter
    (fun w => decide (3 < w.length) && !strContains w main_topic)).take 2

/-- C6: the worked example derives `analysis-mathematical-fundamentals`,
and in general, whenever the sanitised title is non-empty and differs from
the sanitised topic, the deriver appends to the topic slug the hyphen-join
of the sanitised selected words (up to two, length > 3, not substrings of
the topic), or nothing when no word qualifies. -/
theorem c6_create_filename_from_topic :
    (createFilenameFromTopic "Analysis" "Mathematical Fundamentals"
        = "analysis-mathematical-fundamentals") ∧
    (∀ main_topic title,
      sanitizeFilename title ≠ "" →
      sanitizeFilename title ≠ sanitizeFilename main_topic →
      ((keyWords main_topic title = [] →
          createFilenameFromTopic main_topic title = sanitizeFilename main_topic) ∧
       (keyWords main_topic title ≠ [] →
          createFilenameFromTopic main_topic title
            = sanitizeFilename main_topic ++ "-"
              ++ joinHyphen ((keyWords main_topic title).map sanitizeFilename)))) := by
  constructor
  · decide
  · intro mt t h1 h2
    constructor
    · intro hk
      unfold keyWords at hk
      unfold createFilenameFromTopic
      dsimp only
      rw [if_pos ⟨h1, h2⟩, if_neg (fun hne => hne hk)]
    · intro hk
      unfold keyWords at hk ⊢
      unfold createFilenameFromTopic
      dsimp only
      rw [if_pos ⟨h1, h2⟩, if_pos hk]

theorem c6_create_filename_from_topic_witness :
    (sanitizeFilename "Mathematical Fundamentals" ≠ "") ∧
    (sanitizeFilename "Mathematical Fundamentals" ≠ sanitizeFilename "Analysis") ∧
    ((keyWords "Analysis" "Mathematical Fundamentals" = [] →
        createFilenameFromTopic "Analysis" "Mathematical Fundamentals"
          = sanitizeFilename "Analysis") ∧
     (keyWords "Analysis" "Mathematical Fundamentals" ≠ [] →
        createFilenameFromTopic "Analysis" "Mathematical Fundamentals"
          = sanitizeFilename "Analysis" ++ "-"
            ++ joinHyphen ((keyWords "Analysis" "Mathematical Fundamentals").map
                sanitizeFilename))) :=
  ⟨by decide, by decide,
    c6_create_filename_from_topic.2 "Analysis" "Mathematical Fundamentals"
      (by decide) (by decide)⟩

theorem string_eq_empty_iff_data (s : String) : s = "" ↔ s.data = [] := by
  cases s with
  | mk d =>
    constructor
    · intro h
      exact congrArg String.data h
    · intro h
      rw [show d = ([] : List Char) from h]

theorem string_append_ne_empty_left (a b : String) (h : a ≠ "") : a ++ b ≠ "" := by
  intro he
  apply h
  rw [string_eq_empty_iff_data] at he ⊢
  rw [String.data_append] at he
  exact (List.append_eq_nil.mp he).1

/-- C9 counterexample: the deriver can return the empty string on non-null
inputs — a topic with no word characters sanitises to nothing. -/
theorem c9_deriver_counterexample :
    createFilenameFromTopic "!!!" "" = "" := by
  decide

/-- C9 amended: the deriver is total and returns a non-empty slug whenever
the sanitised main topic is non-empty (a topic that sanitises to nothing
can yield an empty result); when `main_topic` is absent or empty, the
pipeline falls back to the caller-supplied output filename whenever one is
given. -/
theorem c9_deriver_amended :
    (∀ main_topic title, sanitizeFilename main_topic ≠ "" →
        createFilenameFromTopic main_topic title ≠ "") ∧
    (∀ d : String, d ≠ "" → ∀ (fm_title : Option String) (orig : String),
        chooseFilename none fm_title (some d) orig = d ∧
        chooseFilename (some "") fm_title (some d) orig = d) := by
  constructor
  · intro mt t h
    unfold createFilenameFromTopic
    dsimp only
    split
    · split
      · exact string_append_ne_empty_left _ _ (string_append_ne_empty_left _ _ h)
      · exact h
    · exact h
  · intro d hd fm_title orig
    constructor
    · simp [chooseFilename, hd]
    · simp [chooseFilename, hd]

theorem c9_deriver_amended_witness :
    (sanitizeFilename "calculus" ≠ "") ∧
    (createFilenameFromTopic "calculus" "" ≠ "") ∧
    (("default" : String) ≠ "") ∧
    (chooseFilename none (some "") (some "default") "orig.txt" = "default" ∧
     chooseFilename (some "") (some "") (some "default") "orig.txt" = "default") :=
  ⟨by decide, c9_deriver_amended.1 "calculus" "" (by decide), by decide,
    c9_deriver_amended.2 "default" (by decide) (some "") "orig.txt"⟩

/-- C7: the metadata parser is total — every input string yields a
(frontmatter, body) pair — and an input with no recognised metadata keys
yields the default frontmatter together with the entire input unchanged as
body. -/
theorem c7_parse_response_total_and_default :
    (parseResponse "no metadata here\njust prose"
        = (defaultFrontmatter, "no metadata here\njust prose")) ∧
    (∀ s : String, ∃ fm body, parseResponse s = (fm, body)) := by
  refine ⟨by decide, ?_⟩
  intro s
  exact ⟨(parseResponse s).1, (parseResponse s).2, rfl⟩
